import Mathlib

/-!
Verification of `get_time_elapsed` (core/carp_bench.h).

```c
double get_time_elapsed() {
    struct timespec tv;
    clock_gettime(CLOCK_REALTIME, &tv);
    return 1000000000 * tv.tv_sec + tv.tv_nsec;
}
```

Embedding.

* `tv_sec` (`time_t`) and `tv_nsec` (`long`) are signed 64-bit integers (LP64).  They are
  modelled as `Int`; every arithmetic result is reduced with `wrap64` (two's complement,
  modulo `2^64`).  The literal `1000000000` is an `int` promoted to `long`.
* `clock_gettime` is the one external call.  What the host clock answers is a parameter of the
  model (`ClockResult`): either it succeeds and stores a reading in `tv`, or it fails, returns
  `-1` and leaves `tv` as it was.  `tv` is an uninitialised local, so its prior content is a
  second parameter (`tv0`).  The state-passing form (`Machine`, `get_time_elapsed_exec`) adds
  `errno`, which a failing `clock_gettime` sets.
* The `return` converts the `long` to `double`.  Every `long` converts to a binary64 number whose
  value is an integer, so the returned double is modelled by its exact value in `Int`.
  The conversion `toDouble` is IEEE 754 binary64 rounding to nearest, ties to even
  (53-bit significand), the default rounding mode.
-/

namespace CarpBench

/-! ## Data model -/

/-- The C `struct timespec`: whole seconds and the nanosecond fraction. -/
structure timespec where
  tv_sec : Int
  tv_nsec : Int
deriving DecidableEq, Repr

/-- What the host answers to `clock_gettime(CLOCK_REALTIME, &tv)`: a reading, or a failure
with its `errno`. -/
inductive ClockResult where
  | ok (reading : timespec)
  | error (errno : Int)
deriving DecidableEq, Repr

/-! ## Machine integers -/

/-- Signed 64-bit wrap-around: the representative of `x` modulo `2^64` in `[-2^63, 2^63)`. -/
def wrap64 (x : Int) : Int :=
  (x + 2 ^ 63) % 2 ^ 64 - 2 ^ 63

/-- The value `x` is representable in a signed 64-bit integer. -/
def fitsInt64 (x : Int) : Prop :=
  -2 ^ 63 ≤ x ∧ x < 2 ^ 63

instance instDecidableFitsInt64 (x : Int) : Decidable (fitsInt64 x) := by
  unfold fitsInt64
  infer_instance

/-! ## Conversion of a 64-bit integer to binary64 -/

/-- Number of low-order bits of `a` that do not fit a 53-bit significand: the least `k` with
`a < 2^(53+k)` (for `a < 2^(53+fuel)`). -/
def dropBits : Nat → Nat → Nat
  | 0, _ => 0
  | fuel + 1, a => if a < 2 ^ 53 then 0 else dropBits fuel (a / 2) + 1

/-- Round `a` to a multiple of `2^k`, to nearest, ties to the even multiple. -/
def roundNearestEven (a k : Nat) : Nat :=
  let q := a / 2 ^ k
  let r := a % 2 ^ k
  if 2 * r < 2 ^ k then q * 2 ^ k
  else if 2 ^ k < 2 * r then (q + 1) * 2 ^ k
  else if q % 2 = 0 then q * 2 ^ k
  else (q + 1) * 2 ^ k

/-- Conversion of a magnitude to binary64: keep the 53 leading bits, round the rest. -/
def natToDouble (a : Nat) : Nat :=
  roundNearestEven a (dropBits 64 a)

/-- Conversion `long → double` (value of the resulting double).  Rounding to nearest-even is
symmetric in the sign, so the magnitude is rounded. -/
def toDouble (x : Int) : Int :=
  if x < 0 then -(natToDouble x.natAbs : Int) else (natToDouble x.natAbs : Int)

/-- An integer `v` is the value of a finite binary64 number: `|v| = m * 2^e` with a significand
`m < 2^53` and an exponent `e ≤ 971` (the largest finite double is `(2^53 - 1) * 2^971`). -/
def isFiniteDouble (v : Int) : Prop :=
  ∃ m e : Nat, m < 2 ^ 53 ∧ e ≤ 971 ∧ v.natAbs = m * 2 ^ e

/-! ## The program -/

/-- The call `clock_gettime(CLOCK_REALTIME, &tv)`: the returned status and the content of `tv`
afterwards.  On failure `tv` is not written. -/
def clock_gettime (c : ClockResult) (tv : timespec) : Int × timespec :=
  match c with
  | .ok reading => (0, reading)
  | .error _ => (-1, tv)

/-- The `long` value of the expression `1000000000 * tv.tv_sec + tv.tv_nsec`. -/
def nanoCount (tv : timespec) : Int :=
  wrap64 (wrap64 (1000000000 * tv.tv_sec) + tv.tv_nsec)

/-- The function `get_time_elapsed`: `c` is the answer of the host clock, `tv0` the prior content
of the local `tv`.  The status of `clock_gettime` is discarded. -/
def get_time_elapsed (c : ClockResult) (tv0 : timespec) : Int :=
  let tv := (clock_gettime c tv0).2
  toDouble (nanoCount tv)

theorem wrap64_of_fits {x : Int} (h : fitsInt64 x) : wrap64 x = x := by
  unfold fitsInt64 at h
  unfold wrap64
  omega

theorem fitsInt64_wrap64 (x : Int) : fitsInt64 (wrap64 x) := by
  unfold fitsInt64 wrap64
  omega

theorem wrap64_add_wrap64 (a b : Int) : wrap64 (wrap64 a + b) = wrap64 (a + b) := by
  unfold wrap64
  omega

theorem nanoCount_eq_wrap (tv : timespec) :
    nanoCount tv = wrap64 (1000000000 * tv.tv_sec + tv.tv_nsec) := by
  unfold nanoCount
  exact wrap64_add_wrap64 _ _

theorem nanoCount_of_fits {tv : timespec}
    (h : fitsInt64 (1000000000 * tv.tv_sec + tv.tv_nsec)) :
    nanoCount tv = 1000000000 * tv.tv_sec + tv.tv_nsec := by
  rw [nanoCount_eq_wrap, wrap64_of_fits h]

/-! ## Rounding lemmas -/

theorem roundNearestEven_cases (a k : Nat) :
    (2 * (a % 2 ^ k) < 2 ^ k ∧ roundNearestEven a k = a / 2 ^ k * 2 ^ k) ∨
    (2 ^ k < 2 * (a % 2 ^ k) ∧ roundNearestEven a k = a / 2 ^ k * 2 ^ k + 2 ^ k) ∨
    (2 * (a % 2 ^ k) = 2 ^ k ∧ (a / 2 ^ k) % 2 = 0 ∧
      roundNearestEven a k = a / 2 ^ k * 2 ^ k) ∨
    (2 * (a % 2 ^ k) = 2 ^ k ∧ (a / 2 ^ k) % 2 = 1 ∧
      roundNearestEven a k = a / 2 ^ k * 2 ^ k + 2 ^ k) := by
  unfold roundNearestEven
  simp only [Nat.add_mul, Nat.one_mul]
  split_ifs <;> omega

theorem div_mul_add_mod (a k : Nat) : a = a / 2 ^ k * 2 ^ k + a % 2 ^ k := by
  have := Nat.div_add_mod a (2 ^ k)
  rw [Nat.mul_comm] at this
  omega


theorem roundNearestEven_zero (a : Nat) : roundNearestEven a 0 = a := by
  unfold roundNearestEven
  simp [Nat.mod_one]

/-- The rounded value is the multiple of `2^k` just below `a` or the one just above. -/
theorem roundNearestEven_floor_or_ceil (a k : Nat) :
    roundNearestEven a k = a / 2 ^ k * 2 ^ k ∨
    roundNearestEven a k = a / 2 ^ k * 2 ^ k + 2 ^ k := by
  rcases roundNearestEven_cases a k with h | h | h | h <;> omega

/-- Rounding error: at most half of `2^k`, in both directions. -/
theorem roundNearestEven_error (a k : Nat) :
    2 * roundNearestEven a k ≤ 2 * a + 2 ^ k ∧ 2 * a ≤ 2 * roundNearestEven a k + 2 ^ k := by
  have hd := div_mul_add_mod a k
  have hr : a % 2 ^ k < 2 ^ k := Nat.mod_lt _ (by positivity)
  rcases roundNearestEven_cases a k with h | h | h | h <;> omega

/-- On a tie the even multiple is chosen. -/
theorem roundNearestEven_tie_even (a k : Nat) (h : 2 * (a % 2 ^ k) = 2 ^ k) :
    (roundNearestEven a k / 2 ^ k) % 2 = 0 := by
  have hP : 0 < 2 ^ k := by positivity
  rcases roundNearestEven_cases a k with e | e | e | e
  · omega
  · omega
  · rw [e.2.2, Nat.mul_div_cancel _ hP]
    exact e.2.1
  · have e1 : a / 2 ^ k * 2 ^ k + 2 ^ k = (a / 2 ^ k + 1) * 2 ^ k := by
      rw [Nat.add_mul, Nat.one_mul]
    rw [e.2.2, e1, Nat.mul_div_cancel _ hP]
    omega

/-- A multiple of `2^k` above `a` is above the rounded value. -/
theorem roundNearestEven_le_multiple {a k m : Nat} (h : a ≤ m * 2 ^ k) :
    roundNearestEven a k ≤ m * 2 ^ k := by
  have hP : 0 < 2 ^ k := by positivity
  have hd := div_mul_add_mod a k
  have hr : a % 2 ^ k < 2 ^ k := Nat.mod_lt _ hP
  have hq : a / 2 ^ k ≤ m := by
    rw [Nat.div_le_iff_le_mul_add_pred hP]
    have : m * 2 ^ k = 2 ^ k * m := Nat.mul_comm _ _
    omega
  rcases Nat.lt_or_ge (a / 2 ^ k) m with hlt | hge
  · have h1 : (a / 2 ^ k + 1) * 2 ^ k ≤ m * 2 ^ k := Nat.mul_le_mul_right _ hlt
    rw [Nat.add_mul, Nat.one_mul] at h1
    rcases roundNearestEven_floor_or_ceil a k with e | e <;> omega
  · have hqm : a / 2 ^ k = m := Nat.le_antisymm hq hge
    rw [hqm] at hd
    rcases roundNearestEven_cases a k with e | e | e | e <;> rw [hqm] at e <;> omega

/-- A multiple of `2^k` below `a` is below the rounded value. -/
theorem multiple_le_roundNearestEven {a k m : Nat} (h : m * 2 ^ k ≤ a) :
    m * 2 ^ k ≤ roundNearestEven a k := by
  have hP : 0 < 2 ^ k := by positivity
  have hq : m ≤ a / 2 ^ k := (Nat.le_div_iff_mul_le hP).2 h
  have h1 : m * 2 ^ k ≤ a / 2 ^ k * 2 ^ k := Nat.mul_le_mul_right _ hq
  rcases roundNearestEven_floor_or_ceil a k with e | e <;> omega

/-- For a fixed `k`, rounding is monotone. -/
theorem roundNearestEven_mono {a b : Nat} (k : Nat) (h : a ≤ b) :
    roundNearestEven a k ≤ roundNearestEven b k := by
  have hP : 0 < 2 ^ k := by positivity
  have hda := div_mul_add_mod a k
  have hdb := div_mul_add_mod b k
  have hq : a / 2 ^ k ≤ b / 2 ^ k := Nat.div_le_div_right h
  rcases Nat.lt_or_ge (a / 2 ^ k) (b / 2 ^ k) with hlt | hge
  · have h1 : (a / 2 ^ k + 1) * 2 ^ k ≤ b / 2 ^ k * 2 ^ k := Nat.mul_le_mul_right _ hlt
    rw [Nat.add_mul, Nat.one_mul] at h1
    rcases roundNearestEven_floor_or_ceil a k with e | e <;>
      rcases roundNearestEven_floor_or_ceil b k with e' | e' <;> omega
  · have hqm : a / 2 ^ k = b / 2 ^ k := Nat.le_antisymm hq hge
    rcases roundNearestEven_cases a k with e | e | e | e <;>
      rcases roundNearestEven_cases b k with e' | e' | e' | e' <;>
      rw [hqm] at e hda <;> omega

/-! ## The exponent -/

theorem dropBits_le (fuel a : Nat) : dropBits fuel a ≤ fuel := by
  induction fuel generalizing a with
  | zero => simp [dropBits]
  | succ f ih =>
    unfold dropBits
    split_ifs
    · omega
    · have := ih (a / 2); omega

theorem dropBits_mono (fuel : Nat) {a b : Nat} (h : a ≤ b) :
    dropBits fuel a ≤ dropBits fuel b := by
  induction fuel generalizing a b with
  | zero => simp [dropBits]
  | succ f ih =>
    unfold dropBits
    split_ifs with h1 h2 h2
    · omega
    · omega
    · omega
    · have := ih (Nat.div_le_div_right (c := 2) h); omega

theorem dropBits_of_lt {fuel a : Nat} (h : a < 2 ^ 53) : dropBits fuel a = 0 := by
  cases fuel with
  | zero => rfl
  | succ f => unfold dropBits; rw [if_pos h]

/-- With enough fuel, `a` has at most `53 + dropBits fuel a` bits. -/
theorem lt_pow_dropBits {fuel a : Nat} (h : a < 2 ^ (53 + fuel)) :
    a < 2 ^ (53 + dropBits fuel a) := by
  induction fuel generalizing a with
  | zero => simpa [dropBits] using h
  | succ f ih =>
    unfold dropBits
    split_ifs with h1
    · simpa using h1
    · have h2 : a / 2 < 2 ^ (53 + f) := by
        rw [Nat.div_lt_iff_lt_mul (by decide)]
        calc a < 2 ^ (53 + (f + 1)) := h
          _ = 2 ^ (53 + f) * 2 := by rw [← Nat.add_assoc, Nat.pow_succ]
      have h3 := ih h2
      have h4 : 2 ^ (53 + (dropBits f (a / 2) + 1)) = 2 ^ (53 + dropBits f (a / 2)) * 2 := by
        rw [← Nat.add_assoc, Nat.pow_succ]
      rw [h4]
      omega

/-- When bits are dropped, `a` has at least `53 + dropBits fuel a` bits. -/
theorem pow_dropBits_le {fuel a : Nat} (h : 0 < dropBits fuel a) :
    2 ^ (52 + dropBits fuel a) ≤ a := by
  induction fuel generalizing a with
  | zero => simp [dropBits] at h
  | succ f ih =>
    unfold dropBits at h ⊢
    split_ifs at h ⊢ with h1
    · omega
    · have h4 : 2 ^ (52 + (dropBits f (a / 2) + 1)) = 2 ^ (52 + dropBits f (a / 2)) * 2 := by
        rw [← Nat.add_assoc, Nat.pow_succ]
      rw [h4]
      rcases Nat.eq_zero_or_pos (dropBits f (a / 2)) with h0 | hpos
      · rw [h0]
        simp only [Nat.add_zero]
        omega
      · have := ih hpos
        omega


/-! ## Conversion lemmas -/

/-- The conversion of magnitudes is monotone. -/
theorem natToDouble_mono {a b : Nat} (h : a ≤ b) (hb : b < 2 ^ (53 + 64)) :
    natToDouble a ≤ natToDouble b := by
  unfold natToDouble
  have hk := dropBits_mono 64 h
  rcases Nat.lt_or_ge (dropBits 64 a) (dropBits 64 b) with hlt | hge
  · -- different binades: a power of two separates the two rounded values
    have ha : a < 2 ^ (53 + dropBits 64 a) := lt_pow_dropBits (Nat.lt_of_le_of_lt h hb)
    have hb2 : 2 ^ (52 + dropBits 64 b) ≤ b := pow_dropBits_le (by omega)
    have e1 : 2 ^ (53 + dropBits 64 a) = 2 ^ 53 * 2 ^ dropBits 64 a := Nat.pow_add _ _ _
    have e2 : 2 ^ (52 + dropBits 64 b) = 2 ^ 52 * 2 ^ dropBits 64 b := Nat.pow_add _ _ _
    have h1 : roundNearestEven a (dropBits 64 a) ≤ 2 ^ 53 * 2 ^ dropBits 64 a :=
      roundNearestEven_le_multiple (by omega)
    have h2 : 2 ^ 52 * 2 ^ dropBits 64 b ≤ roundNearestEven b (dropBits 64 b) :=
      multiple_le_roundNearestEven (by omega)
    have h3 : 2 ^ (53 + dropBits 64 a) ≤ 2 ^ (52 + dropBits 64 b) :=
      Nat.pow_le_pow_right (by decide) (by omega)
    omega
  · have hkk : dropBits 64 a = dropBits 64 b := Nat.le_antisymm hk hge
    rw [hkk]
    exact roundNearestEven_mono _ h

/-- Integers of at most 53 bits, and `2^53` itself, convert exactly. -/
theorem natToDouble_exact {a : Nat} (h : a ≤ 2 ^ 53) : natToDouble a = a := by
  unfold natToDouble
  rcases Nat.lt_or_ge a (2 ^ 53) with hlt | hge
  · rw [dropBits_of_lt hlt, roundNearestEven_zero]
  · have : a = 2 ^ 53 := Nat.le_antisymm h hge
    subst this
    decide

/-- The converted magnitude is a significand below `2^53` times a power of two. -/
theorem natToDouble_representable {a : Nat} (h : a < 2 ^ (53 + 64)) :
    ∃ m e : Nat, m < 2 ^ 53 ∧ e ≤ 971 ∧ natToDouble a = m * 2 ^ e := by
  unfold natToDouble
  have hk : dropBits 64 a ≤ 64 := dropBits_le 64 a
  have ha : a < 2 ^ (53 + dropBits 64 a) := lt_pow_dropBits h
  have hP : 0 < 2 ^ dropBits 64 a := by positivity
  have hq : a / 2 ^ dropBits 64 a < 2 ^ 53 := by
    rw [Nat.div_lt_iff_lt_mul hP, ← Nat.pow_add]
    exact ha
  rcases roundNearestEven_floor_or_ceil a (dropBits 64 a) with e | e
  · exact ⟨a / 2 ^ dropBits 64 a, dropBits 64 a, hq, by omega, e⟩
  · rcases Nat.lt_or_ge (a / 2 ^ dropBits 64 a + 1) (2 ^ 53) with hlt | hge
    · refine ⟨a / 2 ^ dropBits 64 a + 1, dropBits 64 a, hlt, by omega, ?_⟩
      rw [e, Nat.add_mul, Nat.one_mul]
    · have hq1 : a / 2 ^ dropBits 64 a + 1 = 2 ^ 53 := by omega
      refine ⟨1, 53 + dropBits 64 a, by decide, by omega, ?_⟩
      rw [e, Nat.one_mul, Nat.pow_add, ← hq1, Nat.add_mul, Nat.one_mul]

/-- Magnitudes below `2^63` lose at most the ten low bits: the error is at most `512`. -/
theorem natToDouble_error {a : Nat} (h : a < 2 ^ 63) :
    natToDouble a ≤ a + 512 ∧ a ≤ natToDouble a + 512 := by
  unfold natToDouble
  have hk : dropBits 64 a ≤ 10 := by
    by_contra hc
    have h1 : 2 ^ (52 + dropBits 64 a) ≤ a := pow_dropBits_le (by omega)
    have h2 : 2 ^ 63 ≤ 2 ^ (52 + dropBits 64 a) := Nat.pow_le_pow_right (by decide) (by omega)
    omega
  have hP : 2 ^ dropBits 64 a ≤ 2 ^ 10 := Nat.pow_le_pow_right (by decide) hk
  have := roundNearestEven_error a (dropBits 64 a)
  omega

theorem toDouble_natAbs (x : Int) : (toDouble x).natAbs = natToDouble x.natAbs := by
  unfold toDouble
  split_ifs <;> simp

theorem toDouble_of_nonneg {x : Int} (h : 0 ≤ x) : toDouble x = natToDouble x.toNat := by
  unfold toDouble
  rw [if_neg (by omega)]
  congr 2
  omega

/-- The conversion `long → double` is monotone. -/
theorem toDouble_mono {x y : Int} (h : x ≤ y) (hx : fitsInt64 x) (hy : fitsInt64 y) :
    toDouble x ≤ toDouble y := by
  unfold fitsInt64 at hx hy
  have bx : x.natAbs < 2 ^ (53 + 64) := by
    have : (2 : Nat) ^ 64 ≤ 2 ^ (53 + 64) := Nat.pow_le_pow_right (by decide) (by decide)
    omega
  have by_ : y.natAbs < 2 ^ (53 + 64) := by
    have : (2 : Nat) ^ 64 ≤ 2 ^ (53 + 64) := Nat.pow_le_pow_right (by decide) (by decide)
    omega
  unfold toDouble
  split_ifs with h1 h2 h2
  · have := natToDouble_mono (a := y.natAbs) (b := x.natAbs) (by omega) bx
    omega
  · omega
  · omega
  · have := natToDouble_mono (a := x.natAbs) (b := y.natAbs) (by omega) by_
    omega


theorem toDouble_nonneg {x : Int} (h : 0 ≤ x) : 0 ≤ toDouble x := by
  rw [toDouble_of_nonneg h]
  omega

/-- Every `long` converts to a finite double. -/
theorem toDouble_isFiniteDouble {x : Int} (h : fitsInt64 x) : isFiniteDouble (toDouble x) := by
  unfold fitsInt64 at h
  unfold isFiniteDouble
  rw [toDouble_natAbs]
  apply natToDouble_representable
  have : (2 : Nat) ^ 64 ≤ 2 ^ (53 + 64) := Nat.pow_le_pow_right (by decide) (by decide)
  omega

/-- A non-negative `long` converts with an error of at most `512`. -/
theorem toDouble_error {x : Int} (h0 : 0 ≤ x) (h : x < 2 ^ 63) :
    toDouble x ≤ x + 512 ∧ x ≤ toDouble x + 512 := by
  rw [toDouble_of_nonneg h0]
  have := natToDouble_error (a := x.toNat) (by omega)
  omega

theorem dropBits_le_ten {a : Nat} (h : a < 2 ^ 63) : dropBits 64 a ≤ 10 := by
  by_contra hc
  have h1 : 2 ^ (52 + dropBits 64 a) ≤ a := pow_dropBits_le (by omega)
  have h2 : 2 ^ 63 ≤ 2 ^ (52 + dropBits 64 a) := Nat.pow_le_pow_right (by decide) (by omega)
  omega

/-- A magnitude below `2^63` never rounds past a larger multiple of `512`: such a multiple is
either representable in the binade of `a` or the midpoint of two neighbours there. -/
theorem natToDouble_le_of_lt_multiple {a b : Nat} (ha : a < 2 ^ 63) (hab : a < b)
    (hb : 512 ∣ b) : natToDouble a ≤ b := by
  unfold natToDouble
  have hk := dropBits_le_ten ha
  rcases Nat.eq_zero_or_pos (dropBits 64 a) with h0 | hpos
  · rw [h0, roundNearestEven_zero]
    omega
  · obtain ⟨j, hj⟩ : ∃ j, dropBits 64 a = j + 1 := ⟨dropBits 64 a - 1, by omega⟩
    rw [hj]
    have hP : 2 ^ (j + 1) = 2 * 2 ^ j := by rw [Nat.pow_succ, Nat.mul_comm]
    have hdvd : 2 ^ j ∣ b :=
      Nat.dvd_trans (Nat.pow_dvd_pow 2 (show j ≤ 9 by omega)) hb
    obtain ⟨m, hm⟩ := hdvd
    have hd := div_mul_add_mod a (j + 1)
    rcases roundNearestEven_cases a (j + 1) with e | e | e | e
    · omega
    · have h1 : 2 ^ j * (2 * (a / 2 ^ (j + 1)) + 1) < 2 ^ j * m := by
        have e1 : 2 ^ j * (2 * (a / 2 ^ (j + 1)) + 1)
            = a / 2 ^ (j + 1) * 2 ^ (j + 1) + 2 ^ j := by rw [hP]; ring
        omega
      have h2 : 2 * (a / 2 ^ (j + 1)) + 1 < m := Nat.lt_of_mul_lt_mul_left h1
      have h3 : 2 ^ j * (2 * (a / 2 ^ (j + 1)) + 2) ≤ 2 ^ j * m :=
        Nat.mul_le_mul_left _ h2
      have e3 : 2 ^ j * (2 * (a / 2 ^ (j + 1)) + 2)
          = a / 2 ^ (j + 1) * 2 ^ (j + 1) + 2 ^ (j + 1) := by rw [hP]; ring
      omega
    · omega
    · have h1 : 2 ^ j * (2 * (a / 2 ^ (j + 1)) + 1) < 2 ^ j * m := by
        have e1 : 2 ^ j * (2 * (a / 2 ^ (j + 1)) + 1)
            = a / 2 ^ (j + 1) * 2 ^ (j + 1) + 2 ^ j := by rw [hP]; ring
        omega
      have h2 : 2 * (a / 2 ^ (j + 1)) + 1 < m := Nat.lt_of_mul_lt_mul_left h1
      have h3 : 2 ^ j * (2 * (a / 2 ^ (j + 1)) + 2) ≤ 2 ^ j * m :=
        Nat.mul_le_mul_left _ h2
      have e3 : 2 ^ j * (2 * (a / 2 ^ (j + 1)) + 2)
          = a / 2 ^ (j + 1) * 2 ^ (j + 1) + 2 ^ (j + 1) := by rw [hP]; ring
      omega

/-- In the binade `[2^60, 2^61)` eight bits are dropped: doubles are `256` apart. -/
theorem dropBits_binade60 {a : Nat} (h1 : 2 ^ 60 ≤ a) (h2 : a < 2 ^ 61) :
    dropBits 64 a = 8 := by
  have hlt : a < 2 ^ (53 + dropBits 64 a) :=
    lt_pow_dropBits (Nat.lt_of_lt_of_le h2 (Nat.pow_le_pow_right (by decide) (by decide)))
  rcases Nat.lt_trichotomy (dropBits 64 a) 8 with h | h | h
  · have : 2 ^ (53 + dropBits 64 a) ≤ 2 ^ 60 := Nat.pow_le_pow_right (by decide) (by omega)
    omega
  · exact h
  · have h3 : 2 ^ (52 + dropBits 64 a) ≤ a := pow_dropBits_le (by omega)
    have : 2 ^ 61 ≤ 2 ^ (52 + dropBits 64 a) := Nat.pow_le_pow_right (by decide) (by omega)
    omega

/-- In the binade `[2^60, 2^61)` the converted value is a multiple of `256` at most `128`
away. -/
theorem natToDouble_binade60 {a : Nat} (h1 : 2 ^ 60 ≤ a) (h2 : a < 2 ^ 61) :
    natToDouble a ≤ a + 128 ∧ a ≤ natToDouble a + 128 ∧ ∃ m, natToDouble a = m * 256 := by
  unfold natToDouble
  rw [dropBits_binade60 h1 h2]
  have he := roundNearestEven_error a 8
  have e256 : 2 ^ 8 = 256 := by decide
  rw [e256] at he
  refine ⟨by omega, by omega, ?_⟩
  rcases roundNearestEven_floor_or_ceil a 8 with e | e
  · exact ⟨a / 2 ^ 8, by rw [e, e256]⟩
  · exact ⟨a / 2 ^ 8 + 1, by rw [e, e256, Nat.add_mul, Nat.one_mul]⟩


/-! ## The conversion is correctly rounded -/

/-- No number `m * 2^e` with `m < 2^53` lies strictly between the two multiples of
`2^(dropBits 64 a)` that enclose `a`. -/
theorem no_double_between {a w : Nat}
    (hw : ∃ m e : Nat, m < 2 ^ 53 ∧ w = m * 2 ^ e) :
    w ≤ a / 2 ^ dropBits 64 a * 2 ^ dropBits 64 a ∨
    a / 2 ^ dropBits 64 a * 2 ^ dropBits 64 a + 2 ^ dropBits 64 a ≤ w := by
  obtain ⟨m, e, hm, rfl⟩ := hw
  have hP : 0 < 2 ^ dropBits 64 a := by positivity
  rcases Nat.eq_zero_or_pos (dropBits 64 a) with h0 | hpos
  · rw [h0]
    simp only [Nat.pow_zero, Nat.div_one, Nat.mul_one]
    omega
  · have hlow : 2 ^ (52 + dropBits 64 a) ≤ a := pow_dropBits_le hpos
    have hq : 2 ^ 52 ≤ a / 2 ^ dropBits 64 a := by
      rw [Nat.le_div_iff_mul_le hP, ← Nat.pow_add]
      exact hlow
    have hQ : 2 ^ 52 * 2 ^ dropBits 64 a ≤ a / 2 ^ dropBits 64 a * 2 ^ dropBits 64 a :=
      Nat.mul_le_mul_right _ hq
    rcases Nat.lt_or_ge e (dropBits 64 a) with he | he
    · left
      have h1 : m * 2 ^ e ≤ 2 ^ 53 * 2 ^ e := Nat.mul_le_mul_right _ (Nat.le_of_lt hm)
      have h2 : 2 ^ 53 * 2 ^ e = 2 ^ (53 + e) := (Nat.pow_add _ _ _).symm
      have h3 : 2 ^ (53 + e) ≤ 2 ^ (52 + dropBits 64 a) :=
        Nat.pow_le_pow_right (by decide) (by omega)
      have h4 : 2 ^ (52 + dropBits 64 a) = 2 ^ 52 * 2 ^ dropBits 64 a := Nat.pow_add _ _ _
      omega
    · obtain ⟨d, rfl⟩ : ∃ d, e = dropBits 64 a + d := ⟨e - dropBits 64 a, by omega⟩
      have e1 : m * 2 ^ (dropBits 64 a + d) = m * 2 ^ d * 2 ^ dropBits 64 a := by
        rw [Nat.pow_add]; ring
      rw [e1]
      rcases Nat.lt_or_ge (a / 2 ^ dropBits 64 a) (m * 2 ^ d) with hlt | hge
      · right
        have : (a / 2 ^ dropBits 64 a + 1) * 2 ^ dropBits 64 a
            ≤ m * 2 ^ d * 2 ^ dropBits 64 a := Nat.mul_le_mul_right _ hlt
        rw [Nat.add_mul, Nat.one_mul] at this
        exact this
      · left
        exact Nat.mul_le_mul_right _ hge

/-- Correct rounding of magnitudes: no number `m * 2^e` with `m < 2^53` is nearer to `a` than
`natToDouble a`. -/
theorem natToDouble_nearest {a w : Nat}
    (hw : ∃ m e : Nat, m < 2 ^ 53 ∧ w = m * 2 ^ e) :
    ((natToDouble a : Int) - a).natAbs ≤ ((w : Int) - a).natAbs := by
  have hb := no_double_between (a := a) hw
  have hd := div_mul_add_mod a (dropBits 64 a)
  have hr : a % 2 ^ dropBits 64 a < 2 ^ dropBits 64 a := Nat.mod_lt _ (by positivity)
  unfold natToDouble
  rcases roundNearestEven_cases a (dropBits 64 a) with e | e | e | e <;> omega

/-- Correct rounding: `toDouble x` is a finite double (`toDouble_isFiniteDouble`) and no
integer-valued finite double is nearer to `x`.  (Doubles that are not integers are below
`2^53` in magnitude, where `toDouble` is exact.) -/
theorem toDouble_nearest {x w : Int} (hw : isFiniteDouble w) :
    (toDouble x - x).natAbs ≤ (w - x).natAbs := by
  obtain ⟨m, e, hm, _, hme⟩ := hw
  have h1 := natToDouble_nearest (a := x.natAbs) (w := w.natAbs) ⟨m, e, hm, hme⟩
  have h0 := natToDouble_nearest (a := x.natAbs) (w := 0) ⟨0, 0, by decide, by simp⟩
  unfold toDouble
  split_ifs <;> omega


theorem get_time_elapsed_ok (tv tv0 : timespec) :
    get_time_elapsed (.ok tv) tv0 = toDouble (nanoCount tv) := rfl

theorem get_time_elapsed_error (e : Int) (tv0 : timespec) :
    get_time_elapsed (.error e) tv0 = toDouble (nanoCount tv0) := rfl

theorem get_time_elapsed_of_fits (s n : Int) (tv0 : timespec)
    (h : fitsInt64 (1000000000 * s + n)) :
    get_time_elapsed (.ok ⟨s, n⟩) tv0 = toDouble (1000000000 * s + n) := by
  rw [get_time_elapsed_ok, nanoCount_of_fits h]

/-! ## The claims -/

/-- C1, as stated, fails: at the reading of `9223372037` s and `0` ns (a valid 64-bit `time_t`)
the product `1000000000 * tv.tv_sec` exceeds the `long` range, so the integer computed before the
conversion is not `10^9 * s + n`, and the returned value is not that count converted. -/
theorem count_wraps_at_9223372037 :
    fitsInt64 9223372037 ∧
    nanoCount ⟨9223372037, 0⟩ ≠ 1000000000 * 9223372037 + 0 ∧
    get_time_elapsed (.ok ⟨9223372037, 0⟩) ⟨0, 0⟩ ≠ toDouble (1000000000 * 9223372037 + 0) := by
  decide

/-- C1, amended: for every clock reading `(s, n)` whose count `10^9 * s + n` fits the signed
64-bit type, the integer computed before the conversion is exactly `1000000000 * s + n` and the
returned value is that integer converted to double. -/
theorem get_time_elapsed_value (s n : Int) (tv0 : timespec)
    (h : fitsInt64 (1000000000 * s + n)) :
    nanoCount ⟨s, n⟩ = 1000000000 * s + n ∧
    get_time_elapsed (.ok ⟨s, n⟩) tv0 = toDouble (1000000000 * s + n) :=
  ⟨nanoCount_of_fits h, get_time_elapsed_of_fits s n tv0 h⟩

/-- C1, amended, at the reading of `1700000000` s and `1` ns. -/
theorem get_time_elapsed_value_witness :
    fitsInt64 (1000000000 * 1700000000 + 1) ∧
    nanoCount ⟨1700000000, 1⟩ = 1000000000 * 1700000000 + 1 ∧
    get_time_elapsed (.ok ⟨1700000000, 1⟩) ⟨0, 0⟩ = toDouble (1000000000 * 1700000000 + 1) :=
  ⟨by decide, get_time_elapsed_value 1700000000 1 ⟨0, 0⟩ (by decide)⟩

/-- C2, as stated, fails: when the clock query fails (status `-1`, here `errno` 22, `EINVAL`)
and the local `tv` happens to hold zeros, `get_time_elapsed` returns the zero value, the very
value it returns for a successful reading of the epoch: the failure is swallowed. -/
theorem clock_failure_swallowed :
    (clock_gettime (.error 22) ⟨0, 0⟩).1 = -1 ∧
    get_time_elapsed (.error 22) ⟨0, 0⟩ = 0 ∧
    get_time_elapsed (.error 22) ⟨0, 0⟩ = get_time_elapsed (.ok ⟨0, 0⟩) ⟨5, 7⟩ := by
  decide

/-- C2, amended: `get_time_elapsed` has no failure result.  The status of `clock_gettime` is
discarded: whatever the error, the function returns a number, the conversion of the count of
the `timespec` content left in place, which is also what a successful query storing that content
returns.  The caller cannot tell a failed query from a successful one. -/
theorem get_time_elapsed_discards_status (e e' : Int) (tv0 tv1 : timespec) :
    (clock_gettime (.error e) tv0).1 = -1 ∧
    (clock_gettime (.ok tv0) tv1).1 = 0 ∧
    get_time_elapsed (.error e) tv0 = get_time_elapsed (.error e') tv0 ∧
    get_time_elapsed (.error e) tv0 = get_time_elapsed (.ok tv0) tv1 :=
  ⟨rfl, rfl, rfl, rfl⟩

/-- C3: monotonicity.  For two normalised readings whose counts fit the signed 64-bit type, the
first not later than the second, the value returned for the second is at least the value
returned for the first, after the conversion to double. -/
theorem get_time_elapsed_monotone (s1 n1 s2 n2 : Int) (tv0 tv0' : timespec)
    (hn1 : 0 ≤ n1 ∧ n1 < 1000000000) (hn2 : 0 ≤ n2 ∧ n2 < 1000000000)
    (hf1 : fitsInt64 (1000000000 * s1 + n1)) (hf2 : fitsInt64 (1000000000 * s2 + n2))
    (hle : s1 < s2 ∨ (s1 = s2 ∧ n1 ≤ n2)) :
    get_time_elapsed (.ok ⟨s1, n1⟩) tv0 ≤ get_time_elapsed (.ok ⟨s2, n2⟩) tv0' := by
  rw [get_time_elapsed_of_fits s1 n1 tv0 hf1, get_time_elapsed_of_fits s2 n2 tv0' hf2]
  apply toDouble_mono _ hf1 hf2
  omega

/-- C3 at two readings across a second boundary. -/
theorem get_time_elapsed_monotone_witness :
    get_time_elapsed (.ok ⟨1700000000, 999999999⟩) ⟨0, 0⟩
      ≤ get_time_elapsed (.ok ⟨1700000001, 0⟩) ⟨0, 0⟩ :=
  get_time_elapsed_monotone 1700000000 999999999 1700000001 0 ⟨0, 0⟩ ⟨0, 0⟩
    (by decide) (by decide) (by decide) (by decide) (by decide)

/-- C4, as stated, fails: the post-epoch reading of `9223372037` s and `0` ns (`s ≥ 0`,
`0 ≤ n < 10^9`, a valid 64-bit `time_t`) makes the 64-bit product wrap around and the returned
value is negative. -/
theorem negative_value_at_9223372037 :
    (0 : Int) ≤ 9223372037 ∧ fitsInt64 9223372037 ∧
    get_time_elapsed (.ok ⟨9223372037, 0⟩) ⟨0, 0⟩ < 0 := by
  decide

/-- C4, amended: for every post-epoch reading (`s ≥ 0`, `0 ≤ n < 10^9`) whose count
`10^9 * s + n` fits the signed 64-bit type, the returned value is a finite double and is
non-negative. -/
theorem get_time_elapsed_finite_nonneg (s n : Int) (tv0 : timespec)
    (hs : 0 ≤ s) (hn0 : 0 ≤ n) (hn : n < 1000000000)
    (hf : fitsInt64 (1000000000 * s + n)) :
    isFiniteDouble (get_time_elapsed (.ok ⟨s, n⟩) tv0) ∧
    0 ≤ get_time_elapsed (.ok ⟨s, n⟩) tv0 := by
  rw [get_time_elapsed_of_fits s n tv0 hf]
  exact ⟨toDouble_isFiniteDouble hf, toDouble_nonneg (by omega)⟩

/-- C4, amended, at the reading of `1700000000` s and `1` ns. -/
theorem get_time_elapsed_finite_nonneg_witness :
    isFiniteDouble (get_time_elapsed (.ok ⟨1700000000, 1⟩) ⟨0, 0⟩) ∧
    0 ≤ get_time_elapsed (.ok ⟨1700000000, 1⟩) ⟨0, 0⟩ :=
  get_time_elapsed_finite_nonneg 1700000000 1 ⟨0, 0⟩
    (by decide) (by decide) (by decide) (by decide)

/-- C5: precision loss at contemporary dates.  For `s` of the order of `10^9` and more the exact
count exceeds `2^53`; at `s = 1700000000`, `n = 1` nothing overflows, yet the returned value
differs from the exact count `10^9 * s + n`, and the readings `(s, 1)` and `(s, 0)` return the
same value. -/
theorem precision_loss_at_contemporary_dates (tv0 : timespec) :
    (∀ s n : Int, 1000000000 ≤ s → 0 ≤ n → 2 ^ 53 < 1000000000 * s + n) ∧
    nanoCount ⟨1700000000, 1⟩ = 1000000000 * 1700000000 + 1 ∧
    get_time_elapsed (.ok ⟨1700000000, 1⟩) tv0 ≠ 1000000000 * 1700000000 + 1 ∧
    (⟨1700000000, 1⟩ : timespec) ≠ ⟨1700000000, 0⟩ ∧
    get_time_elapsed (.ok ⟨1700000000, 1⟩) tv0 = get_time_elapsed (.ok ⟨1700000000, 0⟩) tv0 := by
  refine ⟨?_, by decide, ?_, by decide, ?_⟩
  · intro s n hs hn
    omega
  · rw [get_time_elapsed_ok]
    decide
  · rw [get_time_elapsed_ok, get_time_elapsed_ok]
    decide

/-- C5: the count of the reading of `1700000000` s and `1` ns exceeds `2^53`. -/
theorem precision_loss_witness :
    (2 : Int) ^ 53 < 1000000000 * 1700000000 + 1 :=
  (precision_loss_at_contemporary_dates ⟨0, 0⟩).1 1700000000 1 (by decide) (by decide)

/-- C6: units and epoch alignment.  For a reading with `s ≥ 0`, `0 ≤ n < 10^9` and a count that
fits the signed 64-bit type, the integer before the conversion has quotient `s` and remainder
`n` by `10^9`, and the returned value divided by `10^9` is within one second of `s`. -/
theorem units_and_epoch_alignment (s n : Int) (tv0 : timespec)
    (hs : 0 ≤ s) (hn0 : 0 ≤ n) (hn : n < 1000000000)
    (hf : fitsInt64 (1000000000 * s + n)) :
    nanoCount ⟨s, n⟩ / 1000000000 = s ∧
    nanoCount ⟨s, n⟩ % 1000000000 = n ∧
    |(get_time_elapsed (.ok ⟨s, n⟩) tv0 : ℚ) / 1000000000 - s| ≤ 1 := by
  have hc : nanoCount ⟨s, n⟩ = 1000000000 * s + n := nanoCount_of_fits hf
  rw [get_time_elapsed_of_fits s n tv0 hf, hc]
  unfold fitsInt64 at hf
  refine ⟨by omega, by omega, ?_⟩
  have hlo := (toDouble_error (x := 1000000000 * s + n) (by omega) hf.2).2
  have hup : toDouble (1000000000 * s + n) ≤ 1000000000 * s + 1000000000 := by
    rw [toDouble_of_nonneg (by omega)]
    have h1 : natToDouble (1000000000 * s + n).toNat ≤ (1000000000 * (s + 1)).toNat :=
      natToDouble_le_of_lt_multiple (by omega) (by omega)
        ⟨(1953125 * (s + 1)).toNat, by omega⟩
    omega
  have hlo' : (1000000000 * s - 1000000000 : ℚ) ≤ (toDouble (1000000000 * s + n) : ℚ) := by
    have : 1000000000 * s - 1000000000 ≤ toDouble (1000000000 * s + n) := by omega
    exact_mod_cast this
  have hup' : (toDouble (1000000000 * s + n) : ℚ) ≤ 1000000000 * s + 1000000000 := by
    exact_mod_cast hup
  rw [abs_le]
  constructor
  · rw [le_sub_iff_add_le, le_div_iff₀ (by norm_num)]
    linarith
  · rw [sub_le_iff_le_add, div_le_iff₀ (by norm_num)]
    linarith

/-- C6 at the last nanosecond of second `1700000000`. -/
theorem units_and_epoch_alignment_witness :
    nanoCount ⟨1700000000, 999999999⟩ / 1000000000 = 1700000000 ∧
    nanoCount ⟨1700000000, 999999999⟩ % 1000000000 = 999999999 ∧
    |(get_time_elapsed (.ok ⟨1700000000, 999999999⟩) ⟨0, 0⟩ : ℚ) / 1000000000
      - (1700000000 : Int)| ≤ 1 :=
  units_and_epoch_alignment 1700000000 999999999 ⟨0, 0⟩
    (by decide) (by decide) (by decide) (by decide)

/-- C7: elapsed-interval scenario.  For two readings whose exact counts lie in `[2^60, 2^61)`
and whose exact separation `d` satisfies `10,000,000 ≤ d ≤ 100,000,000 - 256`, the difference
`t2 - t1` of the returned values is within `256` of `d`, hence at least `10,000,000 - 256` and at
most `100,000,000`.  The difference is itself a double, so the subtraction is exact. -/
theorem elapsed_interval_scenario (s1 n1 s2 n2 : Int) (tv0 tv0' : timespec)
    (h1 : 2 ^ 60 ≤ 1000000000 * s1 + n1 ∧ 1000000000 * s1 + n1 < 2 ^ 61)
    (h2 : 2 ^ 60 ≤ 1000000000 * s2 + n2 ∧ 1000000000 * s2 + n2 < 2 ^ 61)
    (hd : 10000000 ≤ (1000000000 * s2 + n2) - (1000000000 * s1 + n1) ∧
      (1000000000 * s2 + n2) - (1000000000 * s1 + n1) ≤ 100000000 - 256) :
    |(get_time_elapsed (.ok ⟨s2, n2⟩) tv0' - get_time_elapsed (.ok ⟨s1, n1⟩) tv0)
        - ((1000000000 * s2 + n2) - (1000000000 * s1 + n1))| ≤ 256 ∧
    10000000 - 256 ≤ get_time_elapsed (.ok ⟨s2, n2⟩) tv0' - get_time_elapsed (.ok ⟨s1, n1⟩) tv0 ∧
    get_time_elapsed (.ok ⟨s2, n2⟩) tv0' - get_time_elapsed (.ok ⟨s1, n1⟩) tv0 ≤ 100000000 ∧
    isFiniteDouble
      (get_time_elapsed (.ok ⟨s2, n2⟩) tv0' - get_time_elapsed (.ok ⟨s1, n1⟩) tv0) := by
  have hf1 : fitsInt64 (1000000000 * s1 + n1) := by unfold fitsInt64; omega
  have hf2 : fitsInt64 (1000000000 * s2 + n2) := by unfold fitsInt64; omega
  rw [get_time_elapsed_of_fits s1 n1 tv0 hf1, get_time_elapsed_of_fits s2 n2 tv0' hf2,
    toDouble_of_nonneg (by omega), toDouble_of_nonneg (by omega)]
  obtain ⟨a1, a2, ⟨m1, e1⟩⟩ :=
    natToDouble_binade60 (a := (1000000000 * s1 + n1).toNat) (by omega) (by omega)
  obtain ⟨b1, b2, ⟨m2, e2⟩⟩ :=
    natToDouble_binade60 (a := (1000000000 * s2 + n2).toNat) (by omega) (by omega)
  refine ⟨abs_le.2 ⟨by omega, by omega⟩, by omega, by omega, ?_⟩
  refine ⟨m2 - m1, 8, ?_, by decide, ?_⟩
  · have : 2 ^ 53 = 9007199254740992 := by decide
    omega
  · have : 2 ^ 8 = 256 := by decide
    rw [e1, e2, this]
    omega

/-- C7 at two readings `10` ms apart in second `1700000000`. -/
theorem elapsed_interval_scenario_witness :
    |(get_time_elapsed (.ok ⟨1700000000, 10000001⟩) ⟨0, 0⟩
        - get_time_elapsed (.ok ⟨1700000000, 1⟩) ⟨0, 0⟩)
        - ((1000000000 * 1700000000 + 10000001) - (1000000000 * 1700000000 + 1))| ≤ 256 ∧
    10000000 - 256 ≤ get_time_elapsed (.ok ⟨1700000000, 10000001⟩) ⟨0, 0⟩
        - get_time_elapsed (.ok ⟨1700000000, 1⟩) ⟨0, 0⟩ ∧
    get_time_elapsed (.ok ⟨1700000000, 10000001⟩) ⟨0, 0⟩
        - get_time_elapsed (.ok ⟨1700000000, 1⟩) ⟨0, 0⟩ ≤ 100000000 ∧
    isFiniteDouble (get_time_elapsed (.ok ⟨1700000000, 10000001⟩) ⟨0, 0⟩
        - get_time_elapsed (.ok ⟨1700000000, 1⟩) ⟨0, 0⟩) :=
  elapsed_interval_scenario 1700000000 1 1700000000 10000001 ⟨0, 0⟩ ⟨0, 0⟩
    (by decide) (by decide) (by decide)

/-- C9: no integer overflow.  For every reading with `0 ≤ s ≤ 9,223,372,035` and
`0 ≤ n < 10^9` the product `1000000000 * s` and the sum `1000000000 * s + n` fit the signed
64-bit type, so the wrapped computation equals the mathematical value; for every
`s ≥ 9,223,372,037` the product does not fit and the wrapped product differs from it. -/
theorem no_integer_overflow :
    (∀ s n : Int, 0 ≤ s → s ≤ 9223372035 → 0 ≤ n → n < 1000000000 →
      fitsInt64 (1000000000 * s) ∧ fitsInt64 (1000000000 * s + n) ∧
      wrap64 (1000000000 * s) = 1000000000 * s ∧
      nanoCount ⟨s, n⟩ = 1000000000 * s + n) ∧
    (∀ s : Int, 9223372037 ≤ s →
      ¬ fitsInt64 (1000000000 * s) ∧ wrap64 (1000000000 * s) ≠ 1000000000 * s) := by
  constructor
  · intro s n hs0 hs hn0 hn
    have hp : fitsInt64 (1000000000 * s) := by unfold fitsInt64; omega
    have hc : fitsInt64 (1000000000 * s + n) := by unfold fitsInt64; omega
    exact ⟨hp, hc, wrap64_of_fits hp, nanoCount_of_fits hc⟩
  · intro s hs
    have hw := fitsInt64_wrap64 (1000000000 * s)
    unfold fitsInt64 at hw ⊢
    constructor
    · omega
    · intro he
      rw [he] at hw
      omega

/-- C9 at the largest reading of the range and at the first overflowing second. -/
theorem no_integer_overflow_witness :
    (fitsInt64 (1000000000 * 9223372035) ∧ fitsInt64 (1000000000 * 9223372035 + 999999999) ∧
      wrap64 (1000000000 * 9223372035) = 1000000000 * 9223372035 ∧
      nanoCount ⟨9223372035, 999999999⟩ = 1000000000 * 9223372035 + 999999999) ∧
    (¬ fitsInt64 (1000000000 * 9223372037) ∧
      wrap64 (1000000000 * 9223372037) ≠ 1000000000 * 9223372037) :=
  ⟨no_integer_overflow.1 9223372035 999999999 (by decide) (by decide) (by decide) (by decide),
    no_integer_overflow.2 9223372037 (by decide)⟩

/-- C10: exactness below `2^53`.  For every reading with `s ≥ 0`, `0 ≤ n < 10^9` and
`10^9 * s + n ≤ 2^53` (in particular for every `s ≤ 9,007,198`) the returned value equals the
integer `10^9 * s + n`, and on that range `get_time_elapsed` is injective in `(s, n)`. -/
theorem exact_below_two_pow_53 :
    (∀ (s n : Int) (tv0 : timespec), 0 ≤ s → 0 ≤ n → n < 1000000000 →
      1000000000 * s + n ≤ 2 ^ 53 →
      get_time_elapsed (.ok ⟨s, n⟩) tv0 = 1000000000 * s + n) ∧
    (∀ s n : Int, 0 ≤ s → s ≤ 9007198 → 0 ≤ n → n < 1000000000 →
      1000000000 * s + n ≤ 2 ^ 53) ∧
    (∀ (s1 n1 s2 n2 : Int) (tv0 tv0' : timespec),
      0 ≤ s1 → 0 ≤ n1 → n1 < 1000000000 → 1000000000 * s1 + n1 ≤ 2 ^ 53 →
      0 ≤ s2 → 0 ≤ n2 → n2 < 1000000000 → 1000000000 * s2 + n2 ≤ 2 ^ 53 →
      get_time_elapsed (.ok ⟨s1, n1⟩) tv0 = get_time_elapsed (.ok ⟨s2, n2⟩) tv0' →
      s1 = s2 ∧ n1 = n2) := by
  have key : ∀ (s n : Int) (tv0 : timespec), 0 ≤ s → 0 ≤ n → n < 1000000000 →
      1000000000 * s + n ≤ 2 ^ 53 →
      get_time_elapsed (.ok ⟨s, n⟩) tv0 = 1000000000 * s + n := by
    intro s n tv0 hs hn0 hn hb
    have hf : fitsInt64 (1000000000 * s + n) := by unfold fitsInt64; omega
    rw [get_time_elapsed_of_fits s n tv0 hf, toDouble_of_nonneg (by omega),
      natToDouble_exact (by omega)]
    omega
  refine ⟨key, ?_, ?_⟩
  · intro s n hs0 hs hn0 hn
    omega
  · intro s1 n1 s2 n2 tv0 tv0' hs1 hn1 hn1' hb1 hs2 hn2 hn2' hb2 he
    rw [key s1 n1 tv0 hs1 hn1 hn1' hb1, key s2 n2 tv0' hs2 hn2 hn2' hb2] at he
    omega

/-- C10 at the reading whose count is `2^53` exactly. -/
theorem exact_below_two_pow_53_witness :
    get_time_elapsed (.ok ⟨9007199, 254740992⟩) ⟨0, 0⟩ = 1000000000 * 9007199 + 254740992 :=
  exact_below_two_pow_53.1 9007199 254740992 ⟨0, 0⟩
    (by decide) (by decide) (by decide) (by decide)

end CarpBench
